import Mathlib

/-!
# Verification of the datapad `Sequence` core

A shallow embedding of `datapad/sequence.py` (and the field-shaping helper
`apply` in `datapad/fields.py`).  The underlying cursor of a `Sequence` is
modelled as the Lean list of the elements it has yet to produce; each
operator is translated directly from the Python source.  Operators whose
behaviour depends on how many elements they pull from the cursor are
modelled as state transformers returning the produced value together with
the list of elements still remaining on the cursor, and `take` additionally
returns the number of successful upstream pulls (one per element obtained,
matching the side-effect-per-element contract of a Python generator).
-/

namespace Datapad

/-- A minimal model of Python runtime values, used where the source branches
on the identity or truthiness of a value (`keep_if` tests `fn(item) is True`;
`drop_if` applies Python `not`, which coerces truthiness). -/
inductive PyVal where
  | none : PyVal
  | bool : Bool → PyVal
  | int : Int → PyVal
  | str : String → PyVal
  deriving DecidableEq, Repr

/-- Python truthiness: `None` and zero/empty values are falsy. -/
def PyVal.truthy : PyVal → Bool
  | .none => false
  | .bool b => b
  | .int n => n != 0
  | .str s => s.length != 0

namespace Sequence

/-- The loop body of `Sequence.take`'s generator `_f`:
```python
for i, item in enumerate(seq):
    yield item
    if (i + 1) >= count:
        break
```
Returns the yielded elements together with the number of elements pulled
from upstream (each loop iteration pulls exactly one element before
yielding it; a final `next` that raises `StopIteration` pulls none).
`count` is an arbitrary Python integer, `i` the `enumerate` index. -/
def takeGo (count : Int) (i : Nat) : List α → List α × Nat
  | [] => ([], 0)
  | x :: xs =>
    if ((i : Int) + 1) ≥ count then ([x], 1)
    else
      let r := takeGo count (i + 1) xs
      (x :: r.1, r.2 + 1)

/-- `Sequence.take(count)` drained by `collect()`: the produced list and the
number of elements pulled from the upstream cursor. -/
def take_run (count : Int) (l : List α) : List α × Nat :=
  takeGo count 0 l

/-- `Sequence.keep_if(fn)`'s generator:
```python
for item in seq:
    if fn(item) is not True:
        continue
    yield item
```
`is True` is an identity test against the `True` singleton, so only the
boolean `True` value passes. -/
def keep_if (fn : α → PyVal) : List α → List α
  | [] => []
  | x :: xs => if fn x = PyVal.bool true then x :: keep_if fn xs else keep_if fn xs

/-- `Sequence.filter` is an alias for `keep_if`. -/
def filter (fn : α → PyVal) (l : List α) : List α :=
  keep_if fn l

/-- `Sequence.drop_if(fn)` is `self.filter(lambda v: not fn(v))`; Python
`not` returns a genuine bool, negating truthiness. -/
def drop_if (fn : α → PyVal) (l : List α) : List α :=
  filter (fun v => PyVal.bool (!(fn v).truthy)) l

/-- `Sequence.reduce(fn, initial=None)`.  With no initial value the
accumulator is seeded by `next(self._iterable)`, which raises
`StopIteration` on an empty cursor (the spec's `EmptySequence` condition);
then the remaining elements are folded from the left. -/
def reduce (fn : α → α → α) (initial : Option α) (l : List α) : Except String α :=
  match initial with
  | Option.none =>
    match l with
    | [] => Except.error "StopIteration"
    | x :: xs => Except.ok (xs.foldl fn x)
  | some v => Except.ok (l.foldl fn v)

/-- `Sequence.first()`: `items = self.take(1).collect()`, returning `None`
(here `Option.none`) when empty, and the remaining cursor contents.
`take(1)` pulls exactly one element when the cursor is non-empty. -/
def first_run (l : List α) : Option α × List α :=
  match l with
  | [] => (Option.none, [])
  | x :: xs => (some x, xs)

/-- `Sequence.collect()` drains the cursor into a list; nothing remains. -/
def collect_run (l : List α) : List α × List α :=
  (l, [])

/-- `Sequence.count()` (non-distinct) is `self.reduce(lambda acc, _: acc + 1, initial=0)`:
it folds over every element, draining the cursor. -/
def count_run (l : List α) : Int × List α :=
  (l.foldl (fun acc _ => acc + 1) 0, [])

/-- One `counter[item] += 1` step on an insertion-ordered counter
(Python's `collections.Counter` keeps keys in first-appearance order). -/
def counterStep [DecidableEq α] (c : List (α × Nat)) (x : α) : List (α × Nat) :=
  if (c.find? (fun p => p.1 == x)).isSome
  then c.map (fun p => if p.1 == x then (p.1, p.2 + 1) else p)
  else c ++ [(x, 1)]

/-- `Sequence.count(distinct=True)`: the `for index, item in enumerate(...)`
loop drains the cursor while populating the counter. -/
def count_distinct_run [DecidableEq α] (l : List α) : List (α × Nat) × List α :=
  (l.foldl counterStep [], [])

/-- `Sequence.distinct()`: `OrderedDict.fromkeys(list(self))` — drains the
cursor and deduplicates keeping first occurrences in order. -/
def distinct_run [DecidableEq α] (l : List α) : List α × List α :=
  (l.foldl (fun acc x => if x ∈ acc then acc else acc ++ [x]) [], [])

/-- `Sequence.sort(key=None)`: `sorted(list(self._iterable))` drains the
cursor eagerly and sorts (Python's sort is stable; so is merge sort). -/
def sort_run [LinearOrder α] (l : List α) : List α × List α :=
  (l.mergeSort (fun a b => a ≤ b), [])

/-- `Sequence.shuffle()`: `items = list(iterable)` drains the cursor at call
time; `random.shuffle` then permutes the materialized list in place.  The
process-wide random source is abstracted as the permutation `shuffler` it
applies to the materialized list. -/
def shuffle_run (shuffler : List α → List α) (l : List α) : List α × List α :=
  (shuffler l, [])

/-- `Sequence.reduce` as a cursor transformer: both the seeding `next` and
the fold loop consume the cursor to exhaustion. -/
def reduce_run (fn : α → α → α) (initial : Option α) (l : List α) :
    Except String α × List α :=
  (reduce fn initial l, [])

/-- `Sequence.peek()` with `count=None` over a cursor of Python values
(`Option α`, with `Option.none` playing Python's `None`):
```python
element = self.first()
self._iterable = it.chain([element], self._iterable)
return element
```
`first()` yields `None` on an empty cursor, and that `None` is chained back
in front of the (empty) remainder. -/
def peek_noarg (l : List (Option α)) : Option α × List (Option α) :=
  let r := first_run l
  let element : Option α :=
    match r.1 with
    | Option.none => Option.none
    | some x => x
  (element, element :: r.2)

/-- Construction-time body of `Sequence.window(size, stride=1)`: the only
eager check is `assert stride > 0, "stride must be nonzero"`; building the
generator performs no further work.  Arguments are arbitrary Python ints. -/
def window_construct (size stride : Int) : Except String Unit :=
  if stride > 0 then Except.ok () else Except.error "stride must be nonzero"

/-- Construction-time body of `Sequence.batch(size)`:
`return self.window(size=size, stride=size)`. -/
def batch_construct (size : Int) : Except String Unit :=
  window_construct size size

/-- `queue.append(element)` on `collections.deque(maxlen=size)`: appends on
the right and evicts the leftmost element when capacity is exceeded. -/
def pushWin (size : Nat) (q : List α) (x : α) : List α :=
  let q' := q ++ [x]
  if size < q'.length then q'.tail else q'

/-- Second phase of `_window_iterator`: after the first full window,
```python
windows = 0
for element in iterable:
    windows += 1
    queue.append(element)
    if windows % stride == 0:
        yield list(queue)
``` -/
def windowRest (size stride : Nat) (q : List α) (w : Nat) : List α → List (List α)
  | [] => []
  | x :: xs =>
    let q' := pushWin size q x
    if (w + 1) % stride = 0 then q' :: windowRest size stride q' (w + 1) xs
    else windowRest size stride q' (w + 1) xs

/-- First phase of `_window_iterator`: consume the iterable until the queue
holds `size` elements, yield that first window, then hand over to
`windowRest`; if the input ends first, nothing is ever yielded. -/
def windowMain (size stride : Nat) (q : List α) : List α → List (List α)
  | [] => []
  | x :: xs =>
    let q' := pushWin size q x
    if q'.length < size then windowMain size stride q' xs
    else q' :: windowRest size stride q' 0 xs

/-- `_window_iterator(iterable, size, stride)` drained into a list
(`stride` is a positive int by the construction-time assert; `size` a
non-negative int — a negative `size` would fault in `deque` itself). -/
def window_iterator (size stride : Nat) (l : List α) : List (List α) :=
  windowMain size stride [] l

/-- `Sequence.batch(size)` drained: `window(size=size, stride=size)`. -/
def batch_run (size : Nat) (l : List α) : List (List α) :=
  window_iterator size size l

/-- The spec's description of windowing, stated as its own recursion: emit
the first window once `size` elements are available, then one window per
`stride` further elements, dropping any remainder shorter than `size`. -/
def windowSpec (size stride : Nat) (l : List α) : List (List α) :=
  if l.length < size ∨ stride = 0 ∨ size = 0 then []
  else l.take size :: windowSpec size stride (l.drop stride)
termination_by l.length
decreasing_by
  simp only [List.length_drop]
  omega

/-! ### Cursors with identity, for `concat`

`Sequence.concat` compares `seq._iterable == self._iterable` — identity of
the underlying iterator objects.  We model a store of live cursors as a map
from cursor ids to the elements each has yet to produce; draining a cursor
empties its cell, so a second drain of the same id yields nothing. -/

/-- Drain every remaining element of cursor `i`, leaving it exhausted. -/
def drain (heap : Nat → List α) (i : Nat) : List α × (Nat → List α) :=
  (heap i, fun j => if j = i then [] else heap j)

/-- `itertools.chain(a, b)` drained by `collect()`: exhaust cursor `i`,
then exhaust cursor `j` in the resulting store. -/
def chain_collect (heap : Nat → List α) (i j : Nat) : List α :=
  let r := drain heap i
  let s := drain r.2 j
  r.1 ++ s.1

/-- `itertools.tee` on cursor `i`: two fresh cursors (`fresh`, `fresh + 1`)
that will each independently replay the elements remaining on `i`. -/
def tee (heap : Nat → List α) (i fresh : Nat) : (Nat → List α) × Nat × Nat :=
  (fun j => if j = fresh ∨ j = fresh + 1 then heap i else heap j, fresh, fresh + 1)

/-- `Sequence.concat(seq)` drained by `collect()`:
```python
if seq._iterable == self._iterable:
    a, b = it.tee(seq._iterable)
else:
    a = self._iterable
    b = seq._iterable
seq = Sequence(_iterable=it.chain(a, b))
```
`selfId`/`otherId` are the identities of the two iterator objects. -/
def concat_collect (heap : Nat → List α) (selfId otherId : Nat) : List α :=
  if otherId = selfId then
    let fresh := max selfId otherId + 1
    let t := tee heap selfId fresh
    chain_collect t.1 t.2.1 t.2.2
  else
    chain_collect heap selfId otherId

/-! ### The bounded-concurrency map stage `pmap`

`Sequence.pmap(fn, workers, ordered)` selects `pool.imap` when `ordered`
and `pool.imap_unordered` otherwise, over `multiprocessing.dummy.Pool`.
Each upstream element is handed to exactly one worker, tagged with its
submission index; workers finish in an arbitrary completion order,
modelled as the list `order` of submission indices.  `imap_unordered`
delivers results in completion order; `imap` holds completed results in a
reorder buffer and delivers them by submission index. -/

/-- The tagged results produced by the worker pool, in completion order:
the worker that took submission `i` contributes `(i, fn l[i])`. -/
def pmap_results (fn : α → β) (l : List α) (order : List (Fin l.length)) :
    List (Nat × β) :=
  order.map (fun i => (i.val, fn (l.get i)))

/-- `pmap(fn, ordered=False).collect()`: `imap_unordered` yields each
worker's result as it completes. -/
def pmap_unordered_run (fn : α → β) (l : List α) (order : List (Fin l.length)) :
    List β :=
  (pmap_results fn l order).map Prod.snd

/-- `pmap(fn, ordered=True).collect()`: `imap`'s reorder buffer emits, for
each submission index in order, the completed result carrying that index. -/
def pmap_ordered_run (fn : α → β) (l : List α) (order : List (Fin l.length)) :
    List β :=
  (List.finRange l.length).filterMap
    (fun k => ((pmap_results fn l order).find? (fun p => p.1 == k.val)).map Prod.snd)

end Sequence

/-! ### The field-shaping helper `datapad.fields.apply`

`apply(...)` normalizes its arguments into `funcs` — either a single bare
function or a mapping from field keys to functions (a list argument is
turned into a dict keyed by position) — and returns the closure
`_function(data)` modelled below.  Python dict keys must be hashable;
assigning with an unhashable key (a `dict` or `list`) raises `TypeError`. -/

namespace Fields

/-- Python values as they flow through `fields._function`: scalars plus the
two container shapes the helper branches on. -/
inductive FVal where
  | none : FVal
  | bool : Bool → FVal
  | int : Int → FVal
  | str : String → FVal
  | vlist : List FVal → FVal
  | vdict : List (FVal × FVal) → FVal

mutual

/-- Structural equality on `FVal` (Python `==` on these shapes). -/
def FVal.beq : FVal → FVal → Bool
  | FVal.none, FVal.none => true
  | FVal.bool a, FVal.bool b => a == b
  | FVal.int a, FVal.int b => a == b
  | FVal.str a, FVal.str b => a == b
  | FVal.vlist a, FVal.vlist b => FVal.beqList a b
  | FVal.vdict a, FVal.vdict b => FVal.beqDict a b
  | _, _ => false

/-- Elementwise `FVal.beq` on lists. -/
def FVal.beqList : List FVal → List FVal → Bool
  | [], [] => true
  | x :: xs, y :: ys => FVal.beq x y && FVal.beqList xs ys
  | _, _ => false

/-- Pairwise `FVal.beq` on key-value lists. -/
def FVal.beqDict : List (FVal × FVal) → List (FVal × FVal) → Bool
  | [], [] => true
  | (k₁, v₁) :: xs, (k₂, v₂) :: ys =>
    FVal.beq k₁ k₂ && FVal.beq v₁ v₂ && FVal.beqDict xs ys
  | _, _ => false

end

instance : BEq FVal := ⟨FVal.beq⟩

/-- Python hashability: lists and dicts are unhashable. -/
def FVal.hashable : FVal → Bool
  | .vlist _ => false
  | .vdict _ => false
  | _ => true

/-- `d[k] = v` on a Python dict (insertion-ordered association list):
raises `TypeError` when the key is unhashable. -/
def dictSet (d : List (FVal × FVal)) (k v : FVal) : Except String (List (FVal × FVal)) :=
  if k.hashable then
    Except.ok
      (if (d.find? (fun p => p.1 == k)).isSome
       then d.map (fun p => if p.1 == k then (k, v) else p)
       else d ++ [(k, v)])
  else Except.error "TypeError: unhashable type"

/-- The normalized `funcs` inside `apply`: a single bare function, or a
mapping from keys to functions (already converted from list form). -/
inductive Funcs where
  | bare : (FVal → FVal) → Funcs
  | table : List (FVal × (FVal → FVal)) → Funcs

/-- The `isinstance(data, list)` branch of `_function`, with `key` the
`enumerate` index: a bare function is applied to every value; with a
mapping, keys present select their function and absent keys pass the value
through. -/
def applyListGo (funcs : Funcs) (i : Nat) : List FVal → List FVal
  | [] => []
  | v :: rest =>
    (match funcs with
     | .bare f => f v
     | .table t =>
       match t.find? (fun p => p.1 == FVal.int i) with
       | some p => p.2 v
       | Option.none => v) :: applyListGo funcs (i + 1) rest

/-- The `isinstance(data, dict)` branch of `_function`.  In the bare-function
case the source assigns `new_data[data] = f(value)` — the key is the whole
input dict `dataOrig`, not the field key. -/
def applyDictGo (funcs : Funcs) (dataOrig : FVal) (nd : List (FVal × FVal)) :
    List (FVal × FVal) → Except String (List (FVal × FVal))
  | [] => Except.ok nd
  | (k, v) :: rest =>
    match funcs with
    | .bare f =>
      (dictSet nd dataOrig (f v)).bind (fun nd' => applyDictGo funcs dataOrig nd' rest)
    | .table t =>
      match t.find? (fun p => p.1 == k) with
      | some p => (dictSet nd k (p.2 v)).bind (fun nd' => applyDictGo funcs dataOrig nd' rest)
      | Option.none => (dictSet nd k v).bind (fun nd' => applyDictGo funcs dataOrig nd' rest)

/-- `fields.apply(...)`'s returned closure `_function(data)`.  On data that
is neither a list nor a dict, `new_data` is never assigned and the final
`return new_data` raises `UnboundLocalError`. -/
def apply_function (funcs : Funcs) (data : FVal) : Except String FVal :=
  match data with
  | .vlist xs => Except.ok (.vlist (applyListGo funcs 0 xs))
  | .vdict kvs => (applyDictGo funcs data [] kvs).map FVal.vdict
  | _ => Except.error "UnboundLocalError: new_data"

end Fields

/-! ## Supporting lemmas -/

/-- Membership in `keep_if`: an element is yielded iff it occurs in the
input and its predicate value is the boolean `True`. -/
lemma mem_keep_if {α : Type} (fn : α → PyVal) (l : List α) (x : α) :
    x ∈ Sequence.keep_if fn l ↔ x ∈ l ∧ fn x = PyVal.bool true := by
  induction l with
  | nil => simp [Sequence.keep_if]
  | cons y ys ih =>
    simp only [Sequence.keep_if]
    by_cases h : fn y = PyVal.bool true
    · simp only [if_pos h, List.mem_cons, ih]
      constructor
      · rintro (rfl | ⟨hx, hfx⟩)
        · exact ⟨Or.inl rfl, h⟩
        · exact ⟨Or.inr hx, hfx⟩
      · rintro ⟨rfl | hx, hfx⟩
        · exact Or.inl rfl
        · exact Or.inr ⟨hx, hfx⟩
    · simp only [if_neg h, List.mem_cons, ih]
      constructor
      · rintro ⟨hx, hfx⟩
        exact ⟨Or.inr hx, hfx⟩
      · rintro ⟨rfl | hx, hfx⟩
        · exact absurd hfx h
        · exact ⟨hx, hfx⟩

/-- The recursion of `takeGo`, solved in closed form: starting at `enumerate`
index `i` with `i < count`, it yields the next `count.toNat - i` elements
(or all of them) and pulls exactly that many. -/
lemma takeGo_spec {α : Type} (n : Int) :
    ∀ (l : List α) (i : Nat), (i : Int) < n →
      Sequence.takeGo n i l = (l.take (n.toNat - i), min (n.toNat - i) l.length) := by
  intro l
  induction l with
  | nil => intro i _; simp [Sequence.takeGo]
  | cons x xs ih =>
    intro i h
    simp only [Sequence.takeGo]
    by_cases hb : ((i : Int) + 1) ≥ n
    · rw [if_pos hb]
      have hn : n.toNat - i = 1 := by omega
      rw [hn]
      simp
    · rw [if_neg hb]
      have h2 : (((i + 1 : Nat)) : Int) < n := by push_cast; omega
      simp only [ih (i + 1) h2]
      have hk : n.toNat - i = (n.toNat - (i + 1)) + 1 := by omega
      simp only [hk, List.take_succ_cons, List.length_cons, Prod.mk.injEq]
      exact ⟨trivial, by omega⟩

/-- A `filterMap` all of whose values are `some` is a `map`. -/
lemma filterMap_eq_map_of_forall_some {γ δ : Type} {g : γ → Option δ} {h : γ → δ} :
    ∀ l : List γ, (∀ x ∈ l, g x = some (h x)) → l.filterMap g = l.map h := by
  intro l
  induction l with
  | nil => intro _; rfl
  | cons y ys ih =>
    intro H
    rw [List.filterMap_cons, H y (List.mem_cons_self y ys), List.map_cons,
      ih (fun x hx => H x (List.mem_cons_of_mem y hx))]

/-- Every tagged result carries the value determined by its tag: a pair in
`pmap_results` with submission index `k` holds `fn l[k]`. -/
lemma pmap_results_lookup {α β : Type} (fn : α → β) (l : List α)
    (order : List (Fin l.length)) (horder : order.Perm (List.finRange l.length))
    (k : Fin l.length) :
    (Sequence.pmap_results fn l order).find? (fun p => p.1 == k.val) =
      some (k.val, fn (l.get k)) := by
  have hk : k ∈ order := horder.mem_iff.mpr (List.mem_finRange k)
  have hmem : (k.val, fn (l.get k)) ∈ Sequence.pmap_results fn l order :=
    List.mem_map.mpr ⟨k, hk, rfl⟩
  have hex : ∃ p ∈ Sequence.pmap_results fn l order, (p.1 == k.val) = true :=
    ⟨(k.val, fn (l.get k)), hmem, by simp⟩
  have hsome : ((Sequence.pmap_results fn l order).find? (fun p => p.1 == k.val)).isSome :=
    List.find?_isSome.mpr hex
  obtain ⟨p, hp⟩ := Option.isSome_iff_exists.mp hsome
  have hpmem : p ∈ Sequence.pmap_results fn l order := List.mem_of_find?_eq_some hp
  have hpk := List.find?_some hp
  obtain ⟨i, _, hi⟩ := List.mem_map.mp hpmem
  rw [← hi] at hpk
  simp only [beq_iff_eq] at hpk
  have hik : i = k := Fin.ext hpk
  rw [hp, ← hi, hik]

/-- `windowSpec` yields nothing when fewer than `size` elements remain. -/
lemma windowSpec_of_lt {α : Type} {size stride : Nat} {l : List α}
    (h : l.length < size) : Sequence.windowSpec size stride l = [] := by
  rw [Sequence.windowSpec]
  exact if_pos (Or.inl h)

/-- `windowSpec` unfolding when a full window is available. -/
lemma windowSpec_of_ge {α : Type} {size stride : Nat} {l : List α}
    (h : size ≤ l.length) (hs : 1 ≤ size) (ht : 1 ≤ stride) :
    Sequence.windowSpec size stride l =
      l.take size :: Sequence.windowSpec size stride (l.drop stride) := by
  rw [Sequence.windowSpec]
  rw [if_neg]
  rintro (h1 | h2 | h3) <;> omega

/-- Appending to a full ring buffer evicts the oldest element. -/
lemma pushWin_full {α : Type} {size : Nat} {q : List α} (x : α)
    (hq : q.length = size) (hs : 1 ≤ size) :
    Sequence.pushWin size q x = q.tail ++ [x] ∧
      (Sequence.pushWin size q x).length = size := by
  cases q with
  | nil => simp at hq; omega
  | cons a t =>
    have hcond : size < ((a :: t) ++ [x]).length := by simp at hq ⊢; omega
    constructor
    · rw [Sequence.pushWin, if_pos hcond]
      rfl
    · rw [Sequence.pushWin, if_pos hcond]
      simp at hq ⊢
      omega

/-- The second phase of `_window_iterator`, solved against `windowSpec`:
with a full queue `q` and `windows` counter `w`, the next window is emitted
after `stride - w % stride` further pulls, and the emitted stream equals
`windowSpec` on the tail of the logical stream. -/
lemma windowRest_eq {α : Type} (size stride : Nat) (hs : 1 ≤ size)
    (ht : 1 ≤ stride) :
    ∀ (xs q : List α) (w : Nat), q.length = size →
      Sequence.windowRest size stride q w xs =
        Sequence.windowSpec size stride ((q ++ xs).drop (stride - w % stride)) := by
  intro xs
  induction xs with
  | nil =>
    intro q w hq
    have hw : w % stride < stride := Nat.mod_lt _ (by omega)
    have hlen : ((q ++ ([] : List α)).drop (stride - w % stride)).length < size := by
      simp [List.length_drop]
      omega
    rw [windowSpec_of_lt hlen]
    rfl
  | cons x rest ih =>
    intro q w hq
    have hw : w % stride < stride := Nat.mod_lt _ (by omega)
    obtain ⟨hpw, hpl⟩ := pushWin_full x hq hs
    have hqne : q ≠ [] := by
      intro hnil
      rw [hnil] at hq
      simp at hq
      omega
    have hwsucc : (w + 1) % stride = (w % stride + 1) % stride := by
      conv_lhs => rw [← Nat.div_add_mod w stride]
      have hrearr : stride * (w / stride) + w % stride + 1 =
          (w % stride + 1) + (w / stride) * stride := by ring
      rw [hrearr, Nat.add_mul_mod_self_right]
    simp only [Sequence.windowRest, hpw]
    by_cases hz : (w + 1) % stride = 0
    · rw [if_pos hz, ih _ (w + 1) (hpw ▸ hpl), hz]
      have hr : w % stride = stride - 1 := by
        rcases Nat.lt_or_ge (w % stride + 1) stride with hlt | hge
        · rw [hwsucc, Nat.mod_eq_of_lt hlt] at hz
          omega
        · omega
      have hd1 : stride - w % stride = 1 := by omega
      have hdrop : (q ++ x :: rest).drop (stride - w % stride) =
          (q.tail ++ [x]) ++ rest := by
        rw [hd1, List.drop_one]
        cases q with
        | nil => exact absurd rfl hqne
        | cons a t => simp
      rw [hdrop]
      have hfull : (q.tail ++ [x]).length = size := hpw ▸ hpl
      have hge2 : size ≤ ((q.tail ++ [x]) ++ rest).length := by
        simp only [List.length_append, hfull]
        omega
      rw [windowSpec_of_ge hge2 hs ht, List.take_left' hfull]
      have h0 : stride - 0 = stride := by omega
      rw [h0]
    · rw [if_neg hz, ih _ (w + 1) (hpw ▸ hpl)]
      have hr1 : (w + 1) % stride = w % stride + 1 := by
        rcases Nat.lt_or_ge (w % stride + 1) stride with hlt | hge
        · rw [hwsucc, Nat.mod_eq_of_lt hlt]
        · exfalso
          apply hz
          have heq : w % stride + 1 = stride := by omega
          rw [hwsucc, heq, Nat.mod_self]
      have hlt2 : w % stride + 1 < stride := by
        have := Nat.mod_lt (w + 1) (show 0 < stride by omega)
        omega
      have hsplit : stride - w % stride = (stride - (w % stride + 1)) + 1 := by
        omega
      rw [hr1, hsplit]
      have hdrop2 : (q ++ x :: rest).drop ((stride - (w % stride + 1)) + 1) =
          ((q.tail ++ [x]) ++ rest).drop (stride - (w % stride + 1)) := by
        cases q with
        | nil => exact absurd rfl hqne
        | cons a t => simp [List.drop_succ_cons]
      rw [hdrop2]

/-- The first phase of `_window_iterator`, solved against `windowSpec`:
while the queue is still filling, the emitted stream equals `windowSpec`
over the queued prefix followed by the rest of the input. -/
lemma windowMain_eq {α : Type} (size stride : Nat) (hs : 1 ≤ size)
    (ht : 1 ≤ stride) :
    ∀ (l q : List α), q.length < size →
      Sequence.windowMain size stride q l =
        Sequence.windowSpec size stride (q ++ l) := by
  intro l
  induction l with
  | nil =>
    intro q hq
    rw [List.append_nil, windowSpec_of_lt hq]
    rfl
  | cons x xs ih =>
    intro q hq
    have hpw : Sequence.pushWin size q x = q ++ [x] := by
      rw [Sequence.pushWin, if_neg]
      simp only [List.length_append, List.length_cons, List.length_nil]
      omega
    simp only [Sequence.windowMain, hpw]
    by_cases hlt : (q ++ [x]).length < size
    · rw [if_pos hlt, ih _ hlt]
      simp
    · rw [if_neg hlt]
      have hfull : (q ++ [x]).length = size := by
        simp only [List.length_append, List.length_cons, List.length_nil] at hlt ⊢
        omega
      rw [windowRest_eq size stride hs ht xs _ 0 hfull]
      have h0 : stride - 0 % stride = stride := by simp
      rw [h0]
      have hassoc : q ++ x :: xs = (q ++ [x]) ++ xs := by simp
      rw [hassoc]
      have hge2 : size ≤ ((q ++ [x]) ++ xs).length := by
        simp only [List.length_append, hfull]
        omega
      rw [windowSpec_of_ge hge2 hs ht, List.take_left' hfull]

/-! ## Claims -/

/-- **C1** (corrected at `n = 0`, see the counterexample): for every count
`n ≥ 1`, `take(n).collect()` yields exactly the first `min n len` elements —
at most the first `n` — and pulls exactly `min n len ≤ n` elements from the
upstream cursor, so upstream side effects beyond element `n` never occur. -/
theorem take_yields_prefix_and_short_circuits {α : Type} (n : Int) (l : List α)
    (h : 1 ≤ n) :
    (Sequence.take_run n l).1 = l.take n.toNat ∧
    (Sequence.take_run n l).2 = min n.toNat l.length ∧
    ((Sequence.take_run n l).2 : Int) ≤ n := by
  have h0 : ((0 : Nat) : Int) < n := by omega
  rw [Sequence.take_run, takeGo_spec n l 0 h0]
  have hn : n.toNat - 0 = n.toNat := by omega
  rw [hn]
  refine ⟨rfl, rfl, ?_⟩
  have hm : (min n.toNat l.length : Nat) ≤ n.toNat := Nat.min_le_left _ _
  omega

/-- Witness for C1 at `n = 2`, `l = [10, 20, 30]`. -/
theorem take_yields_prefix_and_short_circuits_witness :
    (Sequence.take_run 2 [10, 20, 30]).1 = [10, 20, 30].take ((2 : Int)).toNat ∧
    (Sequence.take_run 2 [10, 20, 30]).2 = min ((2 : Int)).toNat ([10, 20, 30] : List Nat).length ∧
    ((Sequence.take_run (2 : Int) ([10, 20, 30] : List Nat)).2 : Int) ≤ 2 :=
  take_yields_prefix_and_short_circuits 2 [10, 20, 30] (by decide)

/-- **C1 counterexample**: `take(0)` on `range(5)` yields one element and
pulls one element from upstream (the generator yields before testing the
break condition), refuting "at most the first `n` elements / never more
than `n` pulls" at `n = 0`. -/
theorem take_zero_yields_one_counterexample :
    Sequence.take_run 0 [0, 1, 2, 3, 4] = ([0], 1) ∧
    ¬ ((Sequence.take_run 0 [0, 1, 2, 3, 4]).1.length ≤ 0 ∧
        (Sequence.take_run 0 [0, 1, 2, 3, 4]).2 ≤ 0) := by
  exact ⟨rfl, by decide⟩

/-- **C2** (corrected): at operator-construction time, `window` rejects
exactly the non-positive strides (its only eager check is
`assert stride > 0`), and `batch(size)` rejects exactly the non-positive
sizes (because it passes `stride=size`); a non-positive `size` with a
positive stride is *not* rejected by `window`. -/
theorem window_batch_eager_checks :
    ∀ size stride : Int,
      (Sequence.window_construct size stride = Except.ok () ↔ 0 < stride) ∧
      (Sequence.batch_construct size = Except.ok () ↔ 0 < size) := by
  intro size stride
  constructor
  · by_cases h : stride > 0 <;> simp [Sequence.window_construct, h]
  · by_cases h : size > 0 <;>
      simp [Sequence.batch_construct, Sequence.window_construct, h]

/-- **C2 counterexample**: `window(0, stride=1)` raises nothing at
construction time (the claim demands an eager error for non-positive
`size`), and draining it raises nothing either — it just emits empty
windows. -/
theorem window_zero_size_accepted_counterexample :
    Sequence.window_construct 0 1 = Except.ok () ∧
    Sequence.window_iterator 0 1 [0, 1, 2] = [[], [], []] :=
  ⟨rfl, rfl⟩

/-- **C3** (corrected): `collect`, `count`, `count(distinct=True)`,
`distinct`, `sort`, `shuffle` and `reduce` fully drain the cursor, but
`first()` — `take(1).collect()` — consumes exactly one element, leaving the
rest of the cursor unconsumed. -/
theorem eager_terminals_drain_except_first {α : Type} [LinearOrder α] :
    ∀ (l : List α) (fn : α → α → α) (initial : Option α)
      (shuffler : List α → List α),
      (Sequence.collect_run l).2 = [] ∧
      (Sequence.count_run l).2 = [] ∧
      (Sequence.count_distinct_run l).2 = [] ∧
      (Sequence.distinct_run l).2 = [] ∧
      (Sequence.sort_run l).2 = [] ∧
      (Sequence.shuffle_run shuffler l).2 = [] ∧
      (Sequence.reduce_run fn initial l).2 = [] ∧
      (Sequence.first_run l).2 = l.drop 1 := by
  intro l fn initial shuffler
  refine ⟨rfl, rfl, rfl, rfl, rfl, rfl, rfl, ?_⟩
  cases l <;> rfl

/-- **C3 counterexample**: after `first()` on a two-element sequence, an
element still remains on the cursor — `first` is eager but does not fully
drain (its own doctest pulls `0` then `1` from the same sequence). -/
theorem first_leaves_rest_counterexample :
    (Sequence.first_run [0, 1]).2 = [1] ∧ (Sequence.first_run [0, 1]).2 ≠ [] :=
  ⟨rfl, by decide⟩

/-- **C4**: for every function and finite input, and every completion order
of the worker pool, `pmap(f, ordered=True).collect()` is exactly
`[f(x) for x in input]` in input order (ordered `pmap` refines sequential
`map`), and with `ordered=False` the output — delivered in completion
order — is a permutation of that list, so the multisets agree. -/
theorem pmap_ordered_refines_map {α β : Type} (f : α → β) (l : List α)
    (order : List (Fin l.length)) (horder : order.Perm (List.finRange l.length)) :
    Sequence.pmap_ordered_run f l order = l.map f ∧
    (Sequence.pmap_unordered_run f l order).Perm (l.map f) := by
  constructor
  · rw [Sequence.pmap_ordered_run]
    rw [filterMap_eq_map_of_forall_some (h := fun k => f (l.get k))
        (List.finRange l.length)
        (fun k _ => by rw [pmap_results_lookup f l order horder k, Option.map_some'])]
    conv_rhs => rw [← List.finRange_map_get l]
    rw [List.map_map]
    rfl
  · have h1 : Sequence.pmap_unordered_run f l order =
        order.map (fun i => f (l.get i)) := by
      rw [Sequence.pmap_unordered_run, Sequence.pmap_results, List.map_map]
      rfl
    rw [h1]
    have h2 : (order.map fun i => f (l.get i)).Perm
        ((List.finRange l.length).map fun i => f (l.get i)) :=
      horder.map _
    have h3 : ((List.finRange l.length).map fun i => f (l.get i)) = l.map f := by
      conv_rhs => rw [← List.finRange_map_get l]
      rw [List.map_map]
      rfl
    rwa [h3] at h2

/-- Witness for C4 on `l = [10, 20, 30]`, doubling, with completion order
`[2, 0, 1]`. -/
theorem pmap_ordered_refines_map_witness :
    Sequence.pmap_ordered_run (fun v : Nat => v * 2) [10, 20, 30]
        [⟨2, by decide⟩, ⟨0, by decide⟩, ⟨1, by decide⟩] =
      ([10, 20, 30] : List Nat).map (fun v => v * 2) ∧
    (Sequence.pmap_unordered_run (fun v : Nat => v * 2) [10, 20, 30]
        [⟨2, by decide⟩, ⟨0, by decide⟩, ⟨1, by decide⟩]).Perm
      (([10, 20, 30] : List Nat).map (fun v => v * 2)) :=
  pmap_ordered_refines_map (fun v : Nat => v * 2) [10, 20, 30]
    [⟨2, by decide⟩, ⟨0, by decide⟩, ⟨1, by decide⟩] (by decide)

/-- **C5**: self-concatenation duplicates the underlying cursor via `tee`,
so `s.concat(s).collect()` yields every remaining element exactly twice, in
order — source list followed by source list (`range(5)` giving
`[0,1,2,3,4,0,1,2,3,4]`) — whereas chaining one shared cursor with itself
(no `tee`) would deliver each element only once. -/
theorem concat_self_duplicates_cursor {α : Type} :
    (∀ (heap : Nat → List α) (i : Nat),
        Sequence.concat_collect heap i i = heap i ++ heap i) ∧
    Sequence.concat_collect (fun j => if j = 0 then [0, 1, 2, 3, 4] else []) 0 0 =
      [0, 1, 2, 3, 4, 0, 1, 2, 3, 4] ∧
    (∀ (heap : Nat → List α) (i : Nat),
        Sequence.chain_collect heap i i = heap i) := by
  refine ⟨?_, rfl, ?_⟩
  · intro heap i
    simp only [Sequence.concat_collect, Sequence.tee, Sequence.chain_collect,
      Sequence.drain, max_self]
    have h2 : ¬(i + 1 + 1 = i + 1) := by omega
    simp [h2]
  · intro heap i
    simp [Sequence.chain_collect, Sequence.drain]

/-- **C6**: `reduce` without an initial value raises on an empty sequence
(the seeding `next` propagates `StopIteration`, the spec's `EmptySequence`);
`first()` is total and returns the `None` sentinel on empty input; and on a
non-empty sequence `reduce` seeds the accumulator with the first element
and left-folds the rest. -/
theorem reduce_empty_raises_first_does_not {α : Type} :
    (∀ fn : α → α → α,
        Sequence.reduce fn Option.none ([] : List α) = Except.error "StopIteration") ∧
    (Sequence.first_run ([] : List α)).1 = Option.none ∧
    (∀ (fn : α → α → α) (x : α) (xs : List α),
        Sequence.reduce fn Option.none (x :: xs) = Except.ok (xs.foldl fn x)) :=
  ⟨fun _ => rfl, rfl, fun _ _ _ => rfl⟩

/-- **C7**: `keep_if(f)` (and its alias `filter`) yields `x` iff `f(x)` is
the boolean `True` — a merely truthy value such as `1` or a non-empty
string is dropped — and `drop_if(f)` is `keep_if` of the boolean negation
(Python `not`) of `f`. -/
theorem keep_if_requires_bool_true {α : Type} :
    (∀ (fn : α → PyVal) (l : List α) (x : α),
        x ∈ Sequence.keep_if fn l ↔ x ∈ l ∧ fn x = PyVal.bool true) ∧
    (∀ (fn : α → PyVal) (l : List α), Sequence.filter fn l = Sequence.keep_if fn l) ∧
    (∀ (fn : α → PyVal) (l : List α),
        Sequence.drop_if fn l =
          Sequence.keep_if (fun v => PyVal.bool (!(fn v).truthy)) l) ∧
    Sequence.keep_if (fun v : PyVal => v)
        [PyVal.int 1, PyVal.bool true, PyVal.str "x"] = [PyVal.bool true] :=
  ⟨mem_keep_if, fun _ _ => rfl, fun _ _ => rfl, by decide⟩

/-- **C8**: for `size ≥ 1` and `stride ≥ 1`, `_window_iterator` emits the
first window once `size` elements have been pulled and one window per
`stride` further elements, dropping any trailing remainder shorter than
`size` (`windowSpec` is exactly that recursion); `batch(size)` is
`window(size, stride=size)`; and on `range(10)`: `window(3, stride=2)`
collects to `[[0,1,2],[2,3,4],[4,5,6],[6,7,8]]` and `batch(3)` to
`[[0,1,2],[3,4,5],[6,7,8]]` with the remainder `[9]` dropped. -/
theorem window_batch_semantics {α : Type} :
    (∀ (size stride : Nat) (l : List α), 1 ≤ size → 1 ≤ stride →
        Sequence.window_iterator size stride l =
          Sequence.windowSpec size stride l) ∧
    (∀ (size : Nat) (l : List α),
        Sequence.batch_run size l = Sequence.window_iterator size size l) ∧
    Sequence.window_iterator 3 2 (List.range 10) =
      [[0, 1, 2], [2, 3, 4], [4, 5, 6], [6, 7, 8]] ∧
    Sequence.batch_run 3 (List.range 10) = [[0, 1, 2], [3, 4, 5], [6, 7, 8]] := by
  refine ⟨?_, fun _ _ => rfl, by decide, by decide⟩
  intro size stride l hs ht
  rw [Sequence.window_iterator, windowMain_eq size stride hs ht l [] (by simpa using hs)]
  rfl

/-- Witness for C8: the general window equivalence applied at `size = 3`,
`stride = 2`, input `range(10)`. -/
theorem window_batch_semantics_witness :
    Sequence.window_iterator 3 2 (List.range 10) =
      Sequence.windowSpec 3 2 (List.range 10) :=
  (window_batch_semantics (α := Nat)).1 3 2 (List.range 10) (by decide) (by decide)

/-- **C9**: `peek()` on an empty sequence returns `None` and chains that
`None` back onto the cursor, so the previously empty sequence now yields
exactly one element: `collect()` afterwards returns `[None]`, not `[]`. -/
theorem peek_empty_pushes_back_none {α : Type} :
    Sequence.peek_noarg ([] : List (Option α)) = (Option.none, [Option.none]) ∧
    (Sequence.collect_run (Sequence.peek_noarg ([] : List (Option α))).2).1 =
      [Option.none] ∧
    (Sequence.collect_run (Sequence.peek_noarg ([] : List (Option α))).2).1 ≠ [] :=
  ⟨rfl, rfl, by simp [Sequence.collect_run, Sequence.peek_noarg, Sequence.first_run]⟩

/-- **C10**: `fields.apply` with a single bare function, applied to any
non-empty dict, raises `TypeError`: the loop assigns `new_data[data] =
f(value)`, using the whole (unhashable) dict as the key, so no transformed
dict is ever returned. -/
theorem apply_bare_function_on_dict_raises (f : Fields.FVal → Fields.FVal)
    (kvs : List (Fields.FVal × Fields.FVal)) (h : kvs ≠ []) :
    Fields.apply_function (Fields.Funcs.bare f) (Fields.FVal.vdict kvs) =
      Except.error "TypeError: unhashable type" := by
  match kvs, h with
  | (k, v) :: rest, _ => rfl

/-- Witness for C10 on the one-entry dict `{"a": 1}` with the identity
function. -/
theorem apply_bare_function_on_dict_raises_witness :
    ([(Fields.FVal.str "a", Fields.FVal.int 1)] ≠
        ([] : List (Fields.FVal × Fields.FVal))) ∧
    Fields.apply_function (Fields.Funcs.bare (fun v => v))
        (Fields.FVal.vdict [(Fields.FVal.str "a", Fields.FVal.int 1)]) =
      Except.error "TypeError: unhashable type" :=
  ⟨by simp, apply_bare_function_on_dict_raises _ _ (by simp)⟩

end Datapad
